import Mathlib

set_option maxRecDepth 10000

/-!
Shallow embedding of the Merkle tree engine from `merkle-generator`
(package `merkle`, file listed in `tools/README.md`): `NewMerkleTree`,
`GenerateRoot`, `GenerateProof`, `VerifyProof`, `hashPair`,
`HashAddressAmount`, together with an executable Keccak-256 so that the
pinned interoperability vectors can be checked inside Lean.

Bytes are modelled as `Nat` (each in `[0, 256)`), byte strings as
`List Nat`, 64-bit lanes as `Nat` reduced modulo `2^64` where overflow
matters, and Go's `*big.Int` amounts as `Nat`.
-/

namespace Merkle

/-- A digest is a byte string; the hash output domain is 32 bytes. -/
abbrev Digest := List Nat

/-! ### Keccak-256 (the `crypto.Keccak256Hash` primitive) -/

/-- The 24 round constants of Keccak-f[1600]. -/
def keccakRC : List Nat :=
  [0x1,
   0x8082,
   0x800000000000808a,
   0x8000000080008000,
   0x808b,
   0x80000001,
   0x8000000080008081,
   0x8000000000008009,
   0x8a,
   0x88,
   0x80008009,
   0x8000000a,
   0x8000808b,
   0x800000000000008b,
   0x8000000000008089,
   0x8000000000008003,
   0x8000000000008002,
   0x8000000000000080,
   0x800a,
   0x800000008000000a,
   0x8000000080008081,
   0x8000000000008080,
   0x80000001,
   0x8000000080008008]

/-- Rho rotation offsets as the table `r[x][y]` (outer index the column `x`). -/
def rhoOffsets : List (List Nat) :=
  [[0, 36, 3, 41, 18],
   [1, 44, 10, 45, 2],
   [62, 6, 43, 15, 61],
   [28, 55, 25, 21, 56],
   [27, 20, 39, 8, 14]]

/-- Lane lookup in a 25-lane state (missing entries read as zero). -/
def getL (s : List Nat) (i : Nat) : Nat := s.getD i 0

/-- 64-bit left rotation. -/
def rotl64 (x n : Nat) : Nat :=
  (((x <<< n) % (2 ^ 64)) ||| (x >>> (64 - n)))

/-- Keccak theta step. -/
def theta (s : List Nat) : List Nat :=
  let c := (List.range 5).map
    (fun x => getL s x ^^^ getL s (x + 5) ^^^ getL s (x + 10) ^^^
              getL s (x + 15) ^^^ getL s (x + 20))
  let d := (List.range 5).map
    (fun x => getL c ((x + 4) % 5) ^^^ rotl64 (getL c ((x + 1) % 5)) 1)
  (List.range 25).map (fun j => getL s j ^^^ getL d (j % 5))

/-- Keccak rho and pi steps combined: output lane `(X, Y)` is the rotated
source lane `(x, y)` with `y = X` and `x = (X + 3*Y) % 5`. -/
def rhoPi (s : List Nat) : List Nat :=
  (List.range 25).map (fun j =>
    let X := j % 5
    let Y := j / 5
    let x := (X + 3 * Y) % 5
    rotl64 (getL s (x + 5 * X)) (getL (rhoOffsets.getD x []) X))

/-- Keccak chi step. -/
def chi (s : List Nat) : List Nat :=
  (List.range 25).map (fun j =>
    let X := j % 5
    let Y := j / 5
    getL s j ^^^
      ((getL s ((X + 1) % 5 + 5 * Y) ^^^ 0xFFFFFFFFFFFFFFFF) &&&
       getL s ((X + 2) % 5 + 5 * Y)))

/-- Keccak iota step for round `r`. -/
def iotaStep (r : Nat) (s : List Nat) : List Nat :=
  match s with
  | [] => []
  | a :: rest => (a ^^^ getL keccakRC r) :: rest

/-- One Keccak-f[1600] round. -/
def keccakRound (r : Nat) (s : List Nat) : List Nat :=
  iotaStep r (chi (rhoPi (theta s)))

/-- The full 24-round Keccak-f[1600] permutation. -/
def keccakF (s : List Nat) : List Nat :=
  (List.range 24).foldl (fun st r => keccakRound r st) s

/-- Interpret a byte list as one little-endian 64-bit lane. -/
def bytesToLane (bs : List Nat) : Nat :=
  bs.foldr (fun b acc => b + 256 * acc) 0

/-- Split one 136-byte rate block into 17 little-endian lanes. -/
def blockLanes (bs : List Nat) : List Nat :=
  (List.range 17).map (fun j => bytesToLane ((bs.drop (8 * j)).take 8))

/-- XOR one rate block into the state and permute. -/
def absorbBlock (s : List Nat) (block : List Nat) : List Nat :=
  keccakF ((List.range 25).map (fun i => getL s i ^^^ getL (blockLanes block) i))

/-- Absorb a padded message (length a multiple of 136) block by block. -/
def absorb (s : List Nat) (msg : List Nat) : List Nat :=
  ((List.range (msg.length / 136)).map
    (fun i => (msg.drop (136 * i)).take 136)).foldl absorbBlock s

/-- The legacy Keccak multi-rate padding `10*1` with domain byte `0x01`,
as used by Ethereum's Keccak-256 (rate 136 bytes). -/
def pad101 (msg : List Nat) : List Nat :=
  let padLen := 136 - msg.length % 136
  if padLen = 1 then msg ++ [0x81]
  else msg ++ [0x01] ++ List.replicate (padLen - 2) 0 ++ [0x80]

/-- Serialize one 64-bit lane to 8 little-endian bytes. -/
def laneBytes (x : Nat) : List Nat :=
  (List.range 8).map (fun k => (x >>> (8 * k)) % 256)

/-- Keccak-256 of a byte string: 32-byte digest. -/
def keccak256 (msg : List Nat) : Digest :=
  let s := absorb (List.replicate 25 0) (pad101 msg)
  laneBytes (getL s 0) ++ laneBytes (getL s 1) ++ laneBytes (getL s 2) ++ laneBytes (getL s 3)

/-! ### The Merkle engine (`merkle` package) -/

/-- `bytes.Compare(a, b) < 0`: lexicographic byte-wise less-than, which on
equal-length byte strings is the big-endian unsigned ordering. -/
def bytesLt : List Nat → List Nat → Bool
  | [], [] => false
  | [], _ :: _ => true
  | _ :: _, [] => false
  | a :: as, b :: bs => if a < b then true else if b < a then false else bytesLt as bs

/-- `hashPair`: hash two nodes with consistent ordering, as in the Go source:
if `bytes.Compare(a, b) < 0` hash `a ++ b`, otherwise hash `b ++ a`. -/
def hashPair (a b : Digest) : Digest :=
  if bytesLt a b then keccak256 (a ++ b) else keccak256 (b ++ a)

/-- `HashData`: keccak-hash arbitrary byte content. -/
def hashData (data : List Nat) : Digest := keccak256 data

/-- Big-endian 32-byte encoding of a `Nat` that fits (`big.Int.FillBytes`
into a 32-byte buffer): zero-padded on the left. -/
def beBytes32 (n : Nat) : List Nat :=
  (List.range 32).map (fun i => (n >>> (8 * (31 - i))) % 256)

/-- Big-endian value of a byte string (used to state what `beBytes32` encodes). -/
def beValue (bs : List Nat) : Nat :=
  bs.foldl (fun acc b => 256 * acc + b) 0

/-- `HashAddressAmount`: keccak of the 20 address bytes followed by the
32-byte big-endian amount. The Go function returns only a `common.Hash`;
when the amount needs more than 32 bytes, `big.Int.FillBytes` raises a
runtime error that aborts the call without producing a value, modelled
here as `none`. -/
def hashAddressAmount (address : List Nat) (amount : Nat) : Option Digest :=
  if amount < 2 ^ 256 then some (keccak256 (address ++ beBytes32 amount)) else none

/-- `MerkleTree`: holds the (copied) leaf sequence. -/
structure MerkleTree where
  leaves : List Digest
deriving DecidableEq

/-- `NewMerkleTree`: fails on an empty leaf sequence, otherwise stores a copy. -/
def newMerkleTree (leaves : List Digest) : Option MerkleTree :=
  if leaves.length = 0 then none else some ⟨leaves⟩

/-- One pass of the level-building loop body shared by `GenerateRoot` and
`GenerateProof`: pair consecutive nodes left to right; an unpaired final
node is promoted unchanged. -/
def nextLevel : List Digest → List Digest
  | [] => []
  | [a] => [a]
  | a :: b :: rest => hashPair a b :: nextLevel rest

/-- The `for len(currentLevel) > 1` loop of `GenerateRoot`, with an explicit
fuel argument; `l.length` iterations always suffice because each pass
shrinks a level of length ≥ 2 to length `(n+1)/2 ≤ n-1`. -/
def rootAux : Nat → List Digest → List Digest
  | 0, level => level
  | fuel + 1, level => if 1 < level.length then rootAux fuel (nextLevel level) else level

/-- `GenerateRoot`: a single leaf is the root; otherwise collapse levels
until one node remains. (On the empty list — which `NewMerkleTree`
rejects — the Go code would fault on `currentLevel[0]`; here it yields `[]`.) -/
def generateRoot (leaves : List Digest) : Digest :=
  if leaves.length = 1 then leaves.headD []
  else (rootAux leaves.length leaves).headD []

/-- The proof elements contributed by one level of `GenerateProof`: the Go
loop finds the pair starting at `i = (ti/2)*2`; if the pair is complete it
appends the sibling on the other side of the target, and an unpaired
(promoted) target contributes nothing. -/
def siblingAt (level : List Digest) (ti : Nat) : List Digest :=
  if ti / 2 * 2 + 1 < level.length then
    if ti % 2 = 0 then [level.getD (ti / 2 * 2 + 1) []]
    else [level.getD (ti / 2 * 2) []]
  else []

/-- The level loop of `GenerateProof` with explicit fuel; the target index
moves to `ti / 2` at each level, exactly as the Go loop's
`nextTargetIndex = i / 2` on the branch containing the target. -/
def proofAux : Nat → List Digest → Nat → List Digest
  | 0, _, _ => []
  | fuel + 1, level, ti =>
    if 1 < level.length then siblingAt level ti ++ proofAux fuel (nextLevel level) (ti / 2)
    else []

/-- The target-search loop of `GenerateProof`: index of the first leaf equal
to the target, `none` when absent (`targetIndex == -1` in Go). -/
def findIndex (target : Digest) : List Digest → Option Nat
  | [] => none
  | l :: rest => if l = target then some 0 else (findIndex target rest).map (· + 1)

/-- `GenerateProof`: locate the target leaf (first match), then collect the
sibling of the target's pair at every level; `none` models the
`"target leaf not found"` error. -/
def generateProof (leaves : List Digest) (target : Digest) : Option (List Digest) :=
  match findIndex target leaves with
  | none => none
  | some ti => some (proofAux leaves.length leaves ti)

/-- `VerifyProof`: fold the proof into the target with `hashPair` and compare
with the claimed root. -/
def verifyProof (proof : List Digest) (root : Digest) (target : Digest) : Bool :=
  List.foldl hashPair target proof == root

/-- Alternate level-building convention named by the specification for
contrast: an unpaired final node is paired with a duplicate of itself
instead of being promoted. Not part of the Go source. -/
def nextLevelDup : List Digest → List Digest
  | [] => []
  | [a] => [hashPair a a]
  | a :: b :: rest => hashPair a b :: nextLevelDup rest

/-- Root construction under the duplicate-last convention (fuel as above). -/
def rootAuxDup : Nat → List Digest → List Digest
  | 0, level => level
  | fuel + 1, level => if 1 < level.length then rootAuxDup fuel (nextLevelDup level) else level

/-- Root of the alternate duplicate-last implementation. -/
def generateRootDup (leaves : List Digest) : Digest :=
  if leaves.length = 1 then leaves.headD []
  else (rootAuxDup leaves.length leaves).headD []

/-- Concrete leaf digests used for the pinned examples. -/
def leafOne : Digest := beBytes32 1

/-- Second concrete leaf. -/
def leafTwo : Digest := beBytes32 2

/-- Third concrete leaf. -/
def leafThree : Digest := beBytes32 3

/-! ### Order lemmas for `bytesLt` and commutativity of `hashPair` -/

theorem bytesLt_asymm : ∀ a b : List Nat, bytesLt a b = true → bytesLt b a = false
  | [], [], h => by simp [bytesLt] at h
  | [], _ :: _, _ => by simp [bytesLt]
  | _ :: _, [], h => by simp [bytesLt] at h
  | a :: as, b :: bs, h => by
    simp only [bytesLt] at h ⊢
    by_cases h1 : a < b
    · simp [h1, Nat.lt_asymm h1]
    · by_cases h2 : b < a
      · simp [h1, h2] at h
      · simp only [if_neg h1, if_neg h2] at h ⊢
        exact bytesLt_asymm as bs h

theorem bytesLt_eq_of_not : ∀ a b : List Nat,
    bytesLt a b = false → bytesLt b a = false → a = b
  | [], [], _, _ => rfl
  | [], _ :: _, h, _ => by simp [bytesLt] at h
  | _ :: _, [], _, h => by simp [bytesLt] at h
  | a :: as, b :: bs, h, h' => by
    simp only [bytesLt] at h h'
    by_cases h1 : a < b
    · simp [h1] at h
    · by_cases h2 : b < a
      · simp [h1, h2] at h'
      · have hab : a = b := by omega
        subst hab
        simp only [if_neg h1, if_neg h2] at h h'
        rw [bytesLt_eq_of_not as bs h h']

theorem hashPair_comm (a b : Digest) : hashPair a b = hashPair b a := by
  unfold hashPair
  by_cases h : bytesLt a b = true
  · rw [if_pos h, if_neg (by simp [bytesLt_asymm a b h])]
  · by_cases h' : bytesLt b a = true
    · rw [if_neg (by simp [h]), if_pos h']
    · have hab : a = b := bytesLt_eq_of_not a b (by simpa using h) (by simpa using h')
      subst hab; rfl

/-! ### Level-building lemmas -/

theorem nextLevel_length : ∀ l : List Digest, (nextLevel l).length = (l.length + 1) / 2
  | [] => by simp [nextLevel]
  | [_] => by simp [nextLevel]
  | _ :: _ :: rest => by
    simp only [nextLevel, List.length_cons, nextLevel_length rest]
    omega

theorem nextLevel_getD : ∀ (l : List Digest) (k : Nat), 2 * k < l.length →
    (nextLevel l).getD k [] =
      if 2 * k + 1 < l.length then hashPair (l.getD (2 * k) []) (l.getD (2 * k + 1) [])
      else l.getD (2 * k) []
  | [], k, h => by simp at h
  | [a], k, h => by
    have hk : k = 0 := by simp at h; omega
    subst hk
    simp [nextLevel]
  | a :: b :: rest, 0, _ => by
    simp [nextLevel]
  | a :: b :: rest, k + 1, h => by
    have hrest : 2 * k < rest.length := by simp at h; omega
    have := nextLevel_getD rest k hrest
    simp only [nextLevel, List.getD_cons_succ] at this ⊢
    have harith : 2 * (k + 1) = 2 * k + 1 + 1 := by omega
    rw [harith]
    simp only [List.getD_cons_succ, List.length_cons]
    rw [this]
    by_cases hc : 2 * k + 1 < rest.length
    · rw [if_pos hc, if_pos (by omega)]
    · rw [if_neg hc, if_neg (by omega)]

/-! ### Fuel invariance for the level loops -/

theorem rootAux_fuel : ∀ (fuel : Nat) (l : List Digest), l.length ≤ fuel + 1 →
    rootAux (fuel + 1) l = rootAux fuel l
  | 0, l, h => by
    simp only [rootAux]
    rw [if_neg (by omega)]
  | fuel + 1, l, h => by
    show (if 1 < l.length then rootAux (fuel + 1) (nextLevel l) else l) = _
    by_cases h1 : 1 < l.length
    · rw [if_pos h1]
      show _ = (if 1 < l.length then rootAux fuel (nextLevel l) else l)
      rw [if_pos h1]
      exact rootAux_fuel fuel (nextLevel l) (by rw [nextLevel_length]; omega)
    · rw [if_neg h1]
      show _ = (if 1 < l.length then rootAux fuel (nextLevel l) else l)
      rw [if_neg h1]

theorem rootAux_eq_of_le : ∀ (bigFuel fuel : Nat) (l : List Digest),
    l.length ≤ fuel + 1 → fuel ≤ bigFuel → rootAux bigFuel l = rootAux fuel l
  | 0, fuel, l, _, h2 => by
    have : fuel = 0 := by omega
    subst this; rfl
  | big + 1, fuel, l, h1, h2 => by
    rcases Nat.eq_or_lt_of_le h2 with heq | hlt
    · subst heq; rfl
    · calc rootAux (big + 1) l = rootAux big l := rootAux_fuel big l (by omega)
        _ = rootAux fuel l := rootAux_eq_of_le big fuel l h1 (by omega)

theorem proofAux_fuel : ∀ (fuel : Nat) (l : List Digest) (ti : Nat), l.length ≤ fuel + 1 →
    proofAux (fuel + 1) l ti = proofAux fuel l ti
  | 0, l, ti, h => by
    simp only [proofAux]
    rw [if_neg (by omega)]
  | fuel + 1, l, ti, h => by
    show (if 1 < l.length then siblingAt l ti ++ proofAux (fuel + 1) (nextLevel l) (ti / 2)
          else []) = _
    by_cases h1 : 1 < l.length
    · rw [if_pos h1]
      show _ = (if 1 < l.length then siblingAt l ti ++ proofAux fuel (nextLevel l) (ti / 2)
                else [])
      rw [if_pos h1, proofAux_fuel fuel (nextLevel l) (ti / 2) (by rw [nextLevel_length]; omega)]
    · rw [if_neg h1]
      show _ = (if 1 < l.length then siblingAt l ti ++ proofAux fuel (nextLevel l) (ti / 2)
                else [])
      rw [if_neg h1]

theorem proofAux_eq_of_le : ∀ (bigFuel fuel : Nat) (l : List Digest) (ti : Nat),
    l.length ≤ fuel + 1 → fuel ≤ bigFuel → proofAux bigFuel l ti = proofAux fuel l ti
  | 0, fuel, l, ti, _, h2 => by
    have : fuel = 0 := by omega
    subst this; rfl
  | big + 1, fuel, l, ti, h1, h2 => by
    rcases Nat.eq_or_lt_of_le h2 with heq | hlt
    · subst heq; rfl
    · calc proofAux (big + 1) l ti = proofAux big l ti := proofAux_fuel big l ti (by omega)
        _ = proofAux fuel l ti := proofAux_eq_of_le big fuel l ti h1 (by omega)

theorem rootAux_step (l : List Digest) (h : 1 < l.length) :
    rootAux l.length l = rootAux (nextLevel l).length (nextLevel l) := by
  have hev : rootAux l.length l = rootAux (l.length - 1 + 1) l := by
    rw [Nat.sub_add_cancel (by omega)]
  rw [hev]
  show (if 1 < l.length then rootAux (l.length - 1) (nextLevel l) else l) = _
  rw [if_pos h]
  exact rootAux_eq_of_le (l.length - 1) (nextLevel l).length (nextLevel l)
    (by omega) (by rw [nextLevel_length]; omega)

theorem proofAux_step (l : List Digest) (ti : Nat) (h : 1 < l.length) :
    proofAux l.length l ti =
      siblingAt l ti ++ proofAux (nextLevel l).length (nextLevel l) (ti / 2) := by
  have hev : proofAux l.length l ti = proofAux (l.length - 1 + 1) l ti := by
    rw [Nat.sub_add_cancel (by omega)]
  rw [hev]
  show (if 1 < l.length then siblingAt l ti ++ proofAux (l.length - 1) (nextLevel l) (ti / 2)
        else []) = _
  rw [if_pos h]
  rw [proofAux_eq_of_le (l.length - 1) (nextLevel l).length (nextLevel l) (ti / 2)
    (by omega) (by rw [nextLevel_length]; omega)]

/-! ### Folding a level's proof contribution reaches the next level's node -/

theorem foldl_siblingAt (l : List Digest) (ti : Nat) (hti : ti < l.length) :
    List.foldl hashPair (l.getD ti []) (siblingAt l ti) = (nextLevel l).getD (ti / 2) [] := by
  rcases Nat.mod_two_eq_zero_or_one ti with he | ho
  · have h2 : ti / 2 * 2 = ti := by omega
    have h2' : 2 * (ti / 2) = ti := by omega
    unfold siblingAt
    rw [h2]
    by_cases hc : ti + 1 < l.length
    · rw [if_pos hc, if_pos he]
      rw [nextLevel_getD l (ti / 2) (by omega), h2']
      rw [if_pos (by omega)]
      simp [List.foldl]
    · rw [if_neg hc]
      rw [nextLevel_getD l (ti / 2) (by omega), h2']
      rw [if_neg (by omega)]
      simp [List.foldl]
  · have h2 : ti / 2 * 2 = ti - 1 := by omega
    have h2' : 2 * (ti / 2) = ti - 1 := by omega
    have h3 : ti - 1 + 1 = ti := by omega
    unfold siblingAt
    rw [h2, h3]
    rw [if_pos hti, if_neg (by omega)]
    rw [nextLevel_getD l (ti / 2) (by omega), h2', h3]
    rw [if_pos hti]
    simp only [List.foldl]
    exact hashPair_comm _ _

/-! ### Round-trip: folding the generated proof reproduces the root -/

theorem fold_proofAux (n : Nat) : ∀ (l : List Digest) (ti : Nat), l.length = n →
    ti < l.length →
    List.foldl hashPair (l.getD ti []) (proofAux l.length l ti) =
      (rootAux l.length l).headD [] := by
  induction n using Nat.strong_induction_on with
  | _ n ih =>
    intro l ti hn hti
    by_cases h1 : 1 < l.length
    · rw [proofAux_step l ti h1, rootAux_step l h1, List.foldl_append,
        foldl_siblingAt l ti hti]
      exact ih (nextLevel l).length (by rw [nextLevel_length]; omega)
        (nextLevel l) (ti / 2) rfl (by rw [nextLevel_length]; omega)
    · have hl : l.length = 1 := by omega
      have hti0 : ti = 0 := by omega
      subst hti0
      rw [hl]
      show List.foldl hashPair (l.getD 0 []) (if 1 < l.length then _ else []) =
        (if 1 < l.length then _ else l).headD []
      rw [if_neg h1, if_neg h1]
      cases l with
      | nil => simp at hl
      | cons a rest => simp [List.foldl]

/-! ### Locating the target leaf -/

theorem findIndex_eq_none : ∀ (t : Digest) (l : List Digest), findIndex t l = none ↔ t ∉ l
  | t, [] => by simp [findIndex]
  | t, x :: rest => by
    by_cases hx : x = t
    · subst hx; simp [findIndex]
    · have hrec := findIndex_eq_none t rest
      simp only [findIndex, if_neg hx, Option.map_eq_none', hrec, List.mem_cons]
      constructor
      · intro hnr hor
        rcases hor with h' | h'
        · exact hx h'.symm
        · exact hnr h'
      · intro hnot
        exact fun h' => hnot (Or.inr h')

theorem findIndex_of_mem : ∀ (t : Digest) (l : List Digest), t ∈ l →
    ∃ i, findIndex t l = some i ∧ i < l.length ∧ l.getD i [] = t
  | t, [], h => absurd h (List.not_mem_nil t)
  | t, x :: rest, h => by
    by_cases hx : x = t
    · exact ⟨0, by simp [findIndex, hx], by simp, by simp [hx]⟩
    · have ht : t ∈ rest := by
        rcases List.mem_cons.mp h with h' | h'
        · exact absurd h'.symm hx
        · exact h'
      obtain ⟨i, hi1, hi2, hi3⟩ := findIndex_of_mem t rest ht
      refine ⟨i + 1, by simp [findIndex, hx, hi1], by simp; omega, by simpa using hi3⟩

theorem generateRoot_eq_rootAux (l : List Digest) :
    generateRoot l = (rootAux l.length l).headD [] := by
  unfold generateRoot
  split
  · rename_i h
    rw [h]
    show _ = (if 1 < l.length then _ else l).headD []
    rw [if_neg (by omega)]
  · rfl

/-! ### Big-endian encoding lemmas -/

theorem beBytes_foldl : ∀ (k : Nat) (n a : Nat), n < 2 ^ (8 * k) →
    List.foldl (fun acc b => 256 * acc + b) a
      ((List.range k).map (fun i => (n >>> (8 * (k - 1 - i))) % 256)) =
      a * 2 ^ (8 * k) + n := by
  intro k
  induction k with
  | zero =>
    intro n a h
    simp only [Nat.mul_zero, pow_zero] at h ⊢
    simp only [List.range_zero, List.map_nil, List.foldl_nil]
    omega
  | succ k ih =>
    intro n a h
    rw [List.range_succ, List.map_append, List.foldl_append]
    have hmap : (List.range k).map (fun i => (n >>> (8 * (k + 1 - 1 - i))) % 256) =
        (List.range k).map (fun i => ((n >>> 8) >>> (8 * (k - 1 - i))) % 256) := by
      apply List.map_congr_left
      intro i hi
      have hik : i < k := List.mem_range.mp hi
      have h8 : 8 * (k + 1 - 1 - i) = 8 + 8 * (k - 1 - i) := by omega
      rw [h8, Nat.shiftRight_add]
    have hpow : (2 : Nat) ^ (8 * (k + 1)) = 2 ^ (8 * k) * 256 := by
      rw [show 8 * (k + 1) = 8 * k + 8 by omega, pow_add]
      norm_num
    have hsub : n >>> 8 < 2 ^ (8 * k) := by
      rw [Nat.shiftRight_eq_div_pow]
      rw [hpow] at h
      exact (Nat.div_lt_iff_lt_mul (by norm_num)).mpr (by norm_num at h ⊢; omega)
    rw [hmap, ih (n >>> 8) a hsub]
    simp only [List.map_cons, List.map_nil, List.foldl_cons, List.foldl_nil]
    have hlast : k + 1 - 1 - k = 0 := by omega
    rw [hlast, Nat.mul_zero, Nat.shiftRight_zero, Nat.shiftRight_eq_div_pow, hpow]
    have hd : (2 : Nat) ^ 8 = 256 := by norm_num
    rw [hd]
    calc 256 * (a * 2 ^ (8 * k) + n / 256) + n % 256
        = a * (2 ^ (8 * k) * 256) + (256 * (n / 256) + n % 256) := by ring
      _ = a * (2 ^ (8 * k) * 256) + n := by rw [Nat.div_add_mod]

theorem beBytes32_length (n : Nat) : (beBytes32 n).length = 32 := by
  simp [beBytes32]

theorem beValue_beBytes32 (n : Nat) (h : n < 2 ^ 256) : beValue (beBytes32 n) = n := by
  unfold beValue beBytes32
  have hmap : (List.range 32).map (fun i => (n >>> (8 * (31 - i))) % 256) =
      (List.range 32).map (fun i => (n >>> (8 * (32 - 1 - i))) % 256) := rfl
  rw [hmap, beBytes_foldl 32 n 0 h]
  omega

theorem beValue_foldl_base : ∀ (xs : List Nat) (a : Nat),
    List.foldl (fun acc b => 256 * acc + b) a xs =
      a * 256 ^ xs.length + List.foldl (fun acc b => 256 * acc + b) 0 xs
  | [], a => by simp
  | x :: xs, a => by
    simp only [List.foldl_cons, List.length_cons]
    rw [beValue_foldl_base xs (256 * a + x), beValue_foldl_base xs (256 * 0 + x)]
    ring

theorem beValue_cons (x : Nat) (xs : List Nat) :
    beValue (x :: xs) = x * 256 ^ xs.length + beValue xs := by
  unfold beValue
  simp only [List.foldl_cons]
  rw [beValue_foldl_base xs (256 * 0 + x)]
  ring

theorem beValue_lt_pow : ∀ xs : List Nat, (∀ x ∈ xs, x < 256) →
    beValue xs < 256 ^ xs.length
  | [], _ => by simp [beValue]
  | x :: xs, h => by
    have hx : x < 256 := h x (List.mem_cons_self x xs)
    have hxs := beValue_lt_pow xs (fun y hy => h y (List.mem_cons_of_mem x hy))
    rw [beValue_cons]
    calc x * 256 ^ xs.length + beValue xs < x * 256 ^ xs.length + 256 ^ xs.length :=
          Nat.add_lt_add_left hxs _
      _ = (x + 1) * 256 ^ xs.length := by ring
      _ ≤ 256 * 256 ^ xs.length := Nat.mul_le_mul_right _ (by omega)
      _ = 256 ^ (x :: xs).length := by rw [List.length_cons]; ring

theorem base_lt_helper (E a b va vb : Nat) (hva : va < E) (hvb : vb < E) :
    (a * E + va < b * E + vb) ↔ (a < b ∨ (a = b ∧ va < vb)) := by
  constructor
  · intro h
    by_cases hab : a < b
    · exact Or.inl hab
    · have hba : b ≤ a := by omega
      have h1 : b * E ≤ a * E := Nat.mul_le_mul_right E hba
      have h3 : a * E < (b + 1) * E := by
        have : a * E < b * E + E := by omega
        calc a * E < b * E + E := this
          _ = (b + 1) * E := by ring
      have h4 : a < b + 1 := lt_of_mul_lt_mul_right h3 (Nat.zero_le E)
      have hq : a = b := by omega
      subst hq
      exact Or.inr ⟨rfl, by omega⟩
  · intro h
    rcases h with h | ⟨rfl, hv⟩
    · calc a * E + va < a * E + E := by omega
        _ = (a + 1) * E := by ring
        _ ≤ b * E := Nat.mul_le_mul_right E (by omega)
        _ ≤ b * E + vb := Nat.le_add_right _ _
    · omega

theorem bytesLt_iff_beValue : ∀ a b : List Nat, a.length = b.length →
    (∀ x ∈ a, x < 256) → (∀ x ∈ b, x < 256) →
    (bytesLt a b = true ↔ beValue a < beValue b)
  | [], [], _, _, _ => by simp [bytesLt]
  | [], _ :: _, h, _, _ => by simp at h
  | _ :: _, [], h, _, _ => by simp at h
  | a :: as, b :: bs, h, ha, hb => by
    have hlen : as.length = bs.length := by simpa using h
    have has : ∀ x ∈ as, x < 256 := fun y hy => ha y (List.mem_cons_of_mem a hy)
    have hbs : ∀ x ∈ bs, x < 256 := fun y hy => hb y (List.mem_cons_of_mem b hy)
    have hva := beValue_lt_pow as has
    have hvb := beValue_lt_pow bs hbs
    rw [← hlen] at hvb
    rw [beValue_cons, beValue_cons, ← hlen]
    rw [base_lt_helper (256 ^ as.length) a b (beValue as) (beValue bs) hva hvb]
    simp only [bytesLt]
    by_cases h1 : a < b
    · simp [h1]
    · by_cases h2 : b < a
      · simp [h1, h2]
        omega
      · have hq : a = b := by omega
        subst hq
        simp only [if_neg h1, if_neg h2]
        rw [bytesLt_iff_beValue as bs hlen has hbs]
        simp [lt_irrefl]

/-- The spec's `min` of two digests under the byte-wise big-endian ordering,
as realised by the source's comparison. -/
def byteMin (a b : List Nat) : List Nat := if bytesLt a b then a else b

/-- The spec's `max` of two digests under the byte-wise big-endian ordering. -/
def byteMax (a b : List Nat) : List Nat := if bytesLt a b then b else a

theorem proofAux_of_le_one : ∀ (fuel : Nat) (l : List Digest) (ti : Nat),
    l.length ≤ 1 → proofAux fuel l ti = []
  | 0, _, _, _ => rfl
  | fuel + 1, l, ti, h => by
    show (if 1 < l.length then siblingAt l ti ++ proofAux fuel (nextLevel l) (ti / 2)
          else []) = []
    rw [if_neg (by omega)]

/-! ### Pinned interoperability vector -/

/-- The fixed vector's 20-byte account identifier
`0x742d35Cc6634C0532925a3b8D4C9db96C4b4d8b6`. -/
def vecAddress : List Nat :=
  [0x74, 0x2d, 0x35, 0xcc, 0x66, 0x34, 0xc0, 0x53, 0x29, 0x25,
   0xa3, 0xb8, 0xd4, 0xc9, 0xdb, 0x96, 0xc4, 0xb4, 0xd8, 0xb6]

/-- The fixed vector's amount, `10^18`. -/
def vecAmount : Nat := 1000000000000000000

/-- The pinned reference digest
`0x862d9f69cd1642f07c56ec6b92856ce141af9dfe404d2ab0c4685a334945ffe6`. -/
def vecDigest : Digest :=
  [0x86, 0x2d, 0x9f, 0x69, 0xcd, 0x16, 0x42, 0xf0, 0x7c, 0x56,
   0xec, 0x6b, 0x92, 0x85, 0x6c, 0xe1, 0x41, 0xaf, 0x9d, 0xfe,
   0x40, 0x4d, 0x2a, 0xb0, 0xc4, 0x68, 0x5a, 0x33, 0x49, 0x45, 0xff, 0xe6]

/-! ### Claim theorems -/

/-- C1: Round-trip soundness — for every leaf present in a (necessarily
non-empty) leaf set, generating a proof succeeds and verifying that proof
against the generated root and the leaf returns true. -/
theorem claim_roundtrip_soundness (leaves : List Digest) (target : Digest)
    (h : target ∈ leaves) :
    ∃ p, generateProof leaves target = some p ∧
      verifyProof p (generateRoot leaves) target = true := by
  obtain ⟨i, hi1, hi2, hi3⟩ := findIndex_of_mem target leaves h
  refine ⟨proofAux leaves.length leaves i, by simp [generateProof, hi1], ?_⟩
  have hf := fold_proofAux leaves.length leaves i rfl hi2
  rw [hi3] at hf
  simp [verifyProof, generateRoot_eq_rootAux, hf]

/-- Witness for C1 at a concrete three-leaf set. -/
theorem claim_roundtrip_soundness_witness :
    leafTwo ∈ [leafOne, leafTwo, leafThree] ∧
      ∃ p, generateProof [leafOne, leafTwo, leafThree] leafTwo = some p ∧
        verifyProof p (generateRoot [leafOne, leafTwo, leafThree]) leafTwo = true :=
  ⟨by decide, claim_roundtrip_soundness [leafOne, leafTwo, leafThree] leafTwo (by decide)⟩

/-- C6: a one-leaf tree's root is the leaf itself (no hashing), the proof for
that leaf is the empty sequence, and the empty proof verifies the leaf
against itself. -/
theorem claim_singleton_tree (leaf : Digest) :
    generateRoot [leaf] = leaf ∧ generateProof [leaf] leaf = some [] ∧
      verifyProof [] leaf leaf = true := by
  refine ⟨by simp [generateRoot], ?_, by simp [verifyProof]⟩
  have hf : findIndex leaf [leaf] = some 0 := by simp [findIndex]
  have hp : proofAux 1 [leaf] 0 = [] := proofAux_of_le_one 1 [leaf] 0 (by simp)
  simp [generateProof, hf, hp]

/-- C9: tree construction fails exactly on the empty leaf sequence and
otherwise returns the tree over the given leaves. -/
theorem claim_construct_empty (leaves : List Digest) :
    (newMerkleTree leaves = none ↔ leaves = []) ∧
      (leaves ≠ [] → newMerkleTree leaves = some ⟨leaves⟩) := by
  by_cases h : leaves = []
  · subst h; simp [newMerkleTree]
  · have hl : leaves.length ≠ 0 := by simpa [List.length_eq_zero] using h
    simp [newMerkleTree, hl, h]

/-- Witness for C9 at a concrete one-leaf sequence. -/
theorem claim_construct_empty_witness :
    ([leafOne] : List Digest) ≠ [] ∧ newMerkleTree [leafOne] = some ⟨[leafOne]⟩ :=
  ⟨by simp, (claim_construct_empty [leafOne]).2 (by simp)⟩

/-- C10: an empty proof verifies exactly when the target equals the claimed
root; in particular the root of any tree passes verification with an empty
proof. -/
theorem claim_empty_proof_root :
    (∀ r t : Digest, verifyProof [] r t = true ↔ t = r) ∧
      (∀ leaves : List Digest,
        verifyProof [] (generateRoot leaves) (generateRoot leaves) = true) := by
  refine ⟨fun r t => ?_, fun leaves => ?_⟩
  · simp [verifyProof]
  · simp [verifyProof]

/-- C8: proof generation fails exactly when the target is absent; a present
target yields a proof, located at the first matching index (the concrete
case has the target duplicated at indices 0 and 2 and produces the proof
for index 0). -/
theorem claim_leaf_not_found :
    (∀ (leaves : List Digest) (target : Digest),
      generateProof leaves target = none ↔ target ∉ leaves) ∧
      (∀ (leaves : List Digest) (target : Digest), target ∈ leaves →
        (generateProof leaves target).isSome = true) ∧
      generateProof [leafOne, leafTwo, leafOne] leafOne = some [leafTwo, leafOne] := by
  have hmain : ∀ (leaves : List Digest) (target : Digest),
      generateProof leaves target = none ↔ target ∉ leaves := by
    intro leaves target
    unfold generateProof
    constructor
    · intro h
      cases hf : findIndex target leaves with
      | none => exact (findIndex_eq_none target leaves).mp hf
      | some i => rw [hf] at h; simp at h
    · intro h
      rw [(findIndex_eq_none target leaves).mpr h]
  refine ⟨hmain, fun leaves target ht => ?_, by decide⟩
  cases hg : generateProof leaves target with
  | none => exact absurd ((hmain leaves target).mp hg) (by simp [ht])
  | some p => rfl

/-- Witness for C8's present-target conjunct at a concrete input. -/
theorem claim_leaf_not_found_witness :
    leafOne ∈ [leafOne, leafTwo] ∧
      (generateProof [leafOne, leafTwo] leafOne).isSome = true :=
  ⟨by decide, claim_leaf_not_found.2.1 [leafOne, leafTwo] leafOne (by decide)⟩

/-- C7: verification is a total boolean function: it returns true exactly
when folding the proof into the target reproduces the claimed root, hence
false on any mismatch — including an empty proof checked against the root
of a two-leaf tree. -/
theorem claim_verify_total :
    (∀ (p : List Digest) (r t : Digest),
      verifyProof p r t = true ∨ verifyProof p r t = false) ∧
      (∀ (p : List Digest) (r t : Digest),
        verifyProof p r t = true ↔ List.foldl hashPair t p = r) ∧
      verifyProof [] (generateRoot [leafOne, leafTwo]) leafOne = false := by
  refine ⟨fun p r t => ?_, fun p r t => ?_, by decide⟩
  · cases hv : verifyProof p r t
    · exact Or.inr rfl
    · exact Or.inl rfl
  · simp [verifyProof]

/-- C5 (evidence for the code divergence): the Go `HashAddressAmount` has no
error return; for any amount of 256 bits or more the 32-byte encoding step
cannot produce a value (Go's `big.Int.FillBytes` raises a runtime panic),
modelled as `none` — evaluated here at the failing input `2^256`. -/
theorem claim_amount_overflow :
    hashAddressAmount vecAddress (2 ^ 256) = none ∧
      ∀ (addr : List Nat) (amt : Nat), 2 ^ 256 ≤ amt →
        hashAddressAmount addr amt = none := by
  constructor
  · unfold hashAddressAmount
    rw [if_neg (lt_irrefl _)]
  · intro addr amt h
    unfold hashAddressAmount
    rw [if_neg (by omega)]

/-- Witness for C5's universally quantified conjunct. -/
theorem claim_amount_overflow_witness :
    2 ^ 256 ≤ 2 ^ 256 ∧ hashAddressAmount [] (2 ^ 256) = none :=
  ⟨Nat.le_refl _, claim_amount_overflow.2 [] (2 ^ 256) (Nat.le_refl _)⟩

/-- C3: the pair hash is `Hash(min(a,b) ++ max(a,b))` where min and max are
taken under the big-endian unsigned byte-wise ordering (64 bytes are hashed
for 32-byte inputs), and consequently it is commutative. -/
theorem claim_pair_hash_ordering (a b : Digest)
    (ha32 : a.length = 32) (hb32 : b.length = 32)
    (hab : ∀ x ∈ a, x < 256) (hbb : ∀ x ∈ b, x < 256) :
    hashPair a b = keccak256 (byteMin a b ++ byteMax a b) ∧
      beValue (byteMin a b) = min (beValue a) (beValue b) ∧
      beValue (byteMax a b) = max (beValue a) (beValue b) ∧
      (byteMin a b ++ byteMax a b).length = 64 ∧
      hashPair a b = hashPair b a := by
  have hlen : a.length = b.length := by omega
  have hiff := bytesLt_iff_beValue a b hlen hab hbb
  refine ⟨?_, ?_, ?_, ?_, hashPair_comm a b⟩
  · unfold hashPair byteMin byteMax
    by_cases h : bytesLt a b = true <;> simp [h]
  · unfold byteMin
    by_cases h : bytesLt a b = true
    · have hv := hiff.mp h
      rw [if_pos h]
      omega
    · have hv : ¬ beValue a < beValue b := fun hc => h (hiff.mpr hc)
      rw [if_neg h]
      omega
  · unfold byteMax
    by_cases h : bytesLt a b = true
    · have hv := hiff.mp h
      rw [if_pos h]
      omega
    · have hv : ¬ beValue a < beValue b := fun hc => h (hiff.mpr hc)
      rw [if_neg h]
      omega
  · unfold byteMin byteMax
    by_cases h : bytesLt a b = true <;> simp [h, ha32, hb32]

/-- Witness for C3 at two concrete 32-byte digests. -/
theorem claim_pair_hash_ordering_witness :
    leafOne.length = 32 ∧ leafTwo.length = 32 ∧
      (∀ x ∈ leafOne, x < 256) ∧ (∀ x ∈ leafTwo, x < 256) ∧
      hashPair leafOne leafTwo = hashPair leafTwo leafOne :=
  ⟨by decide, by decide, by decide, by decide,
    (claim_pair_hash_ordering leafOne leafTwo (by decide) (by decide)
      (by decide) (by decide)).2.2.2.2⟩

/-- C2: the amount is encoded as exactly 32 big-endian bytes (the decoded
value is the amount), the account bytes are followed by the amount bytes
(52 bytes total) and hashed; at the fixed vector the result is the pinned
digest. -/
theorem claim_hash_account_amount :
    (∀ amt : Nat, amt < 2 ^ 256 →
      (beBytes32 amt).length = 32 ∧ beValue (beBytes32 amt) = amt) ∧
      (∀ (addr : List Nat) (amt : Nat), addr.length = 20 → amt < 2 ^ 256 →
        hashAddressAmount addr amt = some (keccak256 (addr ++ beBytes32 amt)) ∧
        (addr ++ beBytes32 amt).length = 52) ∧
      hashAddressAmount vecAddress vecAmount = some vecDigest := by
  refine ⟨fun amt h => ⟨beBytes32_length amt, beValue_beBytes32 amt h⟩,
    fun addr amt ha h => ⟨?_, ?_⟩, by decide⟩
  · unfold hashAddressAmount
    rw [if_pos h]
  · simp [beBytes32_length, ha]

/-- Witness for C2's quantified conjuncts at the fixed vector. -/
theorem claim_hash_account_amount_witness :
    vecAddress.length = 20 ∧ vecAmount < 2 ^ 256 ∧
      hashAddressAmount vecAddress vecAmount =
        some (keccak256 (vecAddress ++ beBytes32 vecAmount)) :=
  ⟨by decide, by decide,
    (claim_hash_account_amount.2.1 vecAddress vecAmount (by decide) (by decide)).1⟩

/-- C4: a level of odd length promotes its final element unchanged into the
last position of the next level; a three-leaf root is
`hashPair (hashPair a b) c` (third leaf promoted), and at a concrete
three-leaf set it differs from the duplicate-last-leaf convention's root. -/
theorem claim_odd_promotion :
    (∀ l : List Digest, l.length % 2 = 1 →
      (nextLevel l).getD ((nextLevel l).length - 1) [] = l.getD (l.length - 1) []) ∧
      (∀ a b c : Digest, generateRoot [a, b, c] = hashPair (hashPair a b) c) ∧
      generateRoot [leafOne, leafTwo, leafThree] ≠
        generateRootDup [leafOne, leafTwo, leafThree] := by
  refine ⟨fun l hodd => ?_, fun a b c => rfl, by decide⟩
  have hlen := nextLevel_length l
  rw [nextLevel_getD l ((nextLevel l).length - 1) (by omega)]
  have hk : 2 * ((nextLevel l).length - 1) = l.length - 1 := by omega
  rw [hk]
  rw [if_neg (by omega)]

/-- Witness for C4's promotion conjunct at a concrete odd-length level. -/
theorem claim_odd_promotion_witness :
    ([leafOne, leafTwo, leafThree] : List Digest).length % 2 = 1 ∧
      (nextLevel [leafOne, leafTwo, leafThree]).getD
          ((nextLevel [leafOne, leafTwo, leafThree]).length - 1) [] =
        ([leafOne, leafTwo, leafThree] : List Digest).getD
          (([leafOne, leafTwo, leafThree] : List Digest).length - 1) [] :=
  ⟨by decide, claim_odd_promotion.1 [leafOne, leafTwo, leafThree] (by decide)⟩

end Merkle
